import Mathlib

/-!
Verification development for the rebop reaction-network simulator.

The name-based facade (`Gillespie` in `src/pylib.rs`) is embedded directly
from the source: species are kept as a list of names in insertion order
(the source keeps a `HashMap<String, usize>` whose values are exactly the
insertion positions, so a list indexed by position is the same map), and
reactions as the list of `(rate, reactants, products)` triples.

The SSA engine (module `gillespie`) is not part of the sources at hand;
it is modelled from the spec (sections 4.1-4.6).  Machine floats are
modelled as rationals; the exponential transform `-ln(u)/A`, which has no
rational form, is abstracted as a `sampler` parameter so that every
theorem holds for an arbitrary sampler.
-/

namespace Rebop

/-- Modelled from the spec (section 4.2): the propensity specification.
Only the law-of-mass-action shape is required: a constant `k` and a
reactant-multiplicity vector `s`. -/
inductive EngRate where
  | lma (k : ℚ) (s : List Nat)
deriving DecidableEq

/-- Modelled from the spec (section 4.2): the falling factorial
`n * (n-1) * ... * (n-r+1)`, evaluated by multiplying the successive
integer factors `(n - j)` for `j < r`. -/
def fallingFactorial (n : Int) (r : Nat) : Int :=
  (List.range r).foldl (fun p j => p * (n - (j : Int))) 1

/-- Modelled from the spec (section 4.2): the product of falling
factorials of the reactant counts, as an exact integer. -/
def lmaProduct (x : List Int) (s : List Nat) : Int :=
  (x.zip s).foldl (fun p c => p * fallingFactorial c.1 c.2) 1

/-- Modelled from the spec (section 4.2): the propensity of a reaction at
state `x`: the integer product of falling factorials, multiplied by `k`. -/
def propensity : EngRate → List Int → ℚ
  | .lma k s, x => k * (lmaProduct x s : ℚ)

/-- Modelled from the spec (section 4.1): a deterministic PRNG with a
natural-number state; one update of the state. -/
def rngNext (s : Nat) : Nat :=
  (6364136223846793005 * s + 1442695040888963407) % (2 ^ 64)

/-- Modelled from the spec (section 4.1): the uniform `[0,1)` sample read
from the updated state. -/
def rngUnif (s : Nat) : ℚ :=
  ((rngNext s % 2 ^ 53 : Nat) : ℚ) / ((2 ^ 53 : Nat) : ℚ)

/-- Modelled from the spec (section 3): the engine state: the current
time, the species-count vector, the ordered reaction list, and the PRNG
state. -/
structure Engine where
  t : ℚ
  x : List Int
  reactions : List (EngRate × List Int)
  rng : Nat
deriving DecidableEq

/-- Modelled from the spec (section 4.5, step 4): smallest index whose
running propensity sum exceeds the threshold. -/
def selectGo (threshold : ℚ) : ℚ → List ℚ → Nat
  | _, [] => 0
  | acc, aj :: rest =>
    if threshold < acc + aj then 0 else 1 + selectGo threshold (acc + aj) rest

/-- Modelled from the spec (section 3): applying a stoichiometric change
vector to the count vector, `x <- x + delta`. -/
def applyDelta (x delta : List Int) : List Int :=
  List.zipWith (· + ·) x delta

/-- Modelled from the spec (sections 4.4-4.5): `_advance_one_reaction`.
Evaluates every propensity, sums them left to right; if the total is not
positive the system is absorbing and no step is made (`none`, state
unchanged).  Otherwise draws `u1` (time, through the abstract exponential
`sampler`) then `u2` (reaction choice), in that order, and commits the
chosen reaction. -/
def stepKernel (sampler : ℚ → ℚ → ℚ) (g : Engine) : Option Engine :=
  let a := g.reactions.map (fun r => propensity r.1 g.x)
  let total := a.foldl (· + ·) 0
  if total ≤ 0 then none
  else
    let u1 := rngUnif g.rng
    let rng1 := rngNext g.rng
    let dt := sampler u1 total
    let u2 := rngUnif rng1
    let rng2 := rngNext rng1
    let j := selectGo (u2 * total) 0 a
    let delta := (g.reactions.getD j (EngRate.lma 0 [], [])).2
    some (Engine.mk (g.t + dt) (applyDelta g.x delta) g.reactions rng2)

/-- Modelled from the spec (section 4.6): `advance_until`.  Repeats the
step kernel until it reports absorbing (state returned unchanged) or the
next sampled time would exceed the target, in which case the step is
discarded (`x` kept) and the time set to the target.  The fuel bounds the
otherwise unbounded loop; every theorem below is independent of it. -/
def advanceUntil (sampler : ℚ → ℚ → ℚ) : Nat → ℚ → Engine → Engine
  | 0, _, g => g
  | fuel + 1, target, g =>
    match stepKernel sampler g with
    | none => g
    | some g2 =>
      if target < g2.t then Engine.mk target g.x g.reactions g2.rng
      else advanceUntil sampler fuel target g2

/-- Appending one sample to every per-species value column: column `s`
receives `x[s]` (`get_species(s)` in the source).  Embeds the inner
`for s in 0..species.len()` push loops of `run` in `src/pylib.rs`. -/
def pushCols (x : List Int) : List (List Int) → Nat → List (List Int)
  | [], _ => []
  | c :: cs, s => (c ++ [x.getD s 0]) :: pushCols x cs (s + 1)

/-- The name-based facade state of `Gillespie` in `src/pylib.rs`: the
species-name-to-index map, kept as the list of names in insertion order
(a name's index is its position), and the stored reaction triples. -/
structure GState where
  species : List String
  reactions : List (ℚ × List String × List String)
deriving DecidableEq

/-- `Gillespie::new` in `src/pylib.rs`: empty species map, no reactions. -/
def GState.new : GState := GState.mk [] []

/-- `Gillespie::nb_species` in `src/pylib.rs`. -/
def nb_species (st : GState) : Nat := st.species.length

/-- `Gillespie::nb_reactions` in `src/pylib.rs`. -/
def nb_reactions (st : GState) : Nat := st.reactions.length

/-- The registration loops of `Gillespie::add_reaction` in
`src/pylib.rs`: each name not yet present is inserted with index
`species.len()`, i.e. appended at the end of the insertion-order list. -/
def registerAll (sp : List String) (names : List String) : List String :=
  names.foldl (fun acc n => if n ∈ acc then acc else acc ++ [n]) sp

/-- `Gillespie::add_reaction` in `src/pylib.rs`: register unknown
reactants, then unknown products, push the forward triple, and, when a
reverse rate is given, push the swapped triple.  The source returns
`PyResult<()>` and has no error path, hence always `Except.ok`. -/
def add_reaction (st : GState) (rate : ℚ) (reactants products : List String)
    (reverse_rate : Option ℚ) : Except String GState :=
  let sp := registerAll (registerAll st.species reactants) products
  let rs := st.reactions ++ [(rate, reactants, products)]
  let rs2 := match reverse_rate with
    | some r => rs ++ [(r, products, reactants)]
    | none => rs
  Except.ok (GState.mk sp rs2)

/-- Position of the first occurrence of `name` in the species list, as an
option: the model of `self.species.get(name)` on the `HashMap`. -/
def lookupIdx : List String → String → Option Nat
  | [], _ => none
  | s :: ss, n => if s = n then some 0 else (lookupIdx ss n).map (· + 1)

/-- The model of the panicking map index `self.species[name]`: in `run`
the name is always registered, so the out-of-range sentinel
`sp.length` is never produced there. -/
def spIdx (sp : List String) (name : String) : Nat :=
  (lookupIdx sp name).getD sp.length

/-- The `vreactants` loop of `Gillespie::run` in `src/pylib.rs`: starting
from the zero vector of length `species.len()`, add one at the index of
each reactant occurrence. -/
def vreactantsOf (sp : List String) (reactants : List String) : List Nat :=
  reactants.foldl (fun v r => v.set (spIdx sp r) (v.getD (spIdx sp r) 0 + 1))
    (List.replicate sp.length 0)

/-- The `actions` loops of `Gillespie::run` in `src/pylib.rs`: starting
from the zero vector, subtract one per reactant occurrence, then add one
per product occurrence. -/
def actionsOf (sp : List String) (reactants products : List String) : List Int :=
  let v1 := reactants.foldl
    (fun v r => v.set (spIdx sp r) (v.getD (spIdx sp r) 0 - 1))
    (List.replicate sp.length 0)
  products.foldl (fun v p => v.set (spIdx sp p) (v.getD (spIdx sp p) 0 + 1)) v1

/-- The per-reaction lowering of `Gillespie::run` in `src/pylib.rs`: one
stored triple becomes one engine reaction `(Rate::lma(rate, vreactants),
actions)`. -/
def lowerReaction (sp : List String) (r : ℚ × List String × List String) :
    EngRate × List Int :=
  (EngRate.lma r.1 (vreactantsOf sp r.2.1), actionsOf sp r.2.1 r.2.2)

/-- One iteration of the `x0` initialisation loop of `Gillespie::run` in
`src/pylib.rs`: `if let Some(id) = species.get(name) { x0[id] = value }`;
an unregistered name leaves the vector unchanged. -/
def initApply (sp : List String) (v : List Int) (p : String × Nat) : List Int :=
  match lookupIdx sp p.1 with
  | some i => v.set i (p.2 : Int)
  | none => v

/-- The `x0` initialisation loop of `Gillespie::run` in `src/pylib.rs`:
starting from the zero vector, each `(name, value)` pair of `init` whose
name is registered sets the corresponding entry; unknown names are
skipped. -/
def buildX0 (sp : List String) (init : List (String × Nat)) : List Int :=
  init.foldl (initApply sp) (List.replicate sp.length 0)

/-- The grid-mode loop body of `Gillespie::run` in `src/pylib.rs`: for
step index `i`, push `t = tmax * i / nb_steps`, advance the engine until
`t`, then push one sample per species. -/
def gridStep (sampler : ℚ → ℚ → ℚ) (afuel : Nat) (tmax : ℚ) (nsteps : Nat)
    (acc : List ℚ × List (List Int) × Engine) (i : Nat) :
    List ℚ × List (List Int) × Engine :=
  let t := tmax * (i : ℚ) / (nsteps : ℚ)
  let g2 := advanceUntil sampler afuel t acc.2.2
  (acc.1 ++ [t], pushCols g2.x acc.2.1 0, g2)

/-- The grid-mode loop of `Gillespie::run` in `src/pylib.rs`:
`for i in 0..=nb_steps`. -/
def gridRun (sampler : ℚ → ℚ → ℚ) (afuel : Nat) (tmax : ℚ) (nsteps : Nat)
    (g0 : Engine) (ncols : Nat) : List ℚ × List (List Int) × Engine :=
  (List.range (nsteps + 1)).foldl (gridStep sampler afuel tmax nsteps)
    ([], List.replicate ncols [], g0)

/-- The event-mode loop of `Gillespie::run` in `src/pylib.rs`:
`while t < tmax`, call `_advance_one_reaction` (whose no-step sentinel the
source ignores: on an absorbing system the engine state is unchanged),
then push the time and one sample per species.  The loop is unbounded, so
it carries fuel; `none` means the loop did not finish within the fuel. -/
def eventRun (sampler : ℚ → ℚ → ℚ) :
    Nat → ℚ → Engine → List ℚ → List (List Int) →
    Option (List ℚ × List (List Int))
  | 0, _, _, _, _ => none
  | fuel + 1, tmax, g, times, cols =>
    if g.t < tmax then
      let g2 := (stepKernel sampler g).getD g
      eventRun sampler fuel tmax g2 (times ++ [g2.t]) (pushCols g2.x cols 0)
    else some (times, cols)

/-- `Gillespie::run` in `src/pylib.rs`: build `x0` from `init`, seed the
engine (`new_with_seed` when a seed is given, otherwise from the entropy
source), lower every stored reaction, then run grid mode
(`nb_steps > 0`) or event mode (`nb_steps == 0`); the result pairs the
times with the per-name value columns. -/
def run (sampler : ℚ → ℚ → ℚ) (afuel efuel : Nat) (st : GState)
    (init : List (String × Nat)) (tmax : ℚ) (nb_steps : Nat)
    (seed : Option Nat) (entropy : Nat) :
    Option (List ℚ × List (String × List Int)) :=
  let x0 := buildX0 st.species init
  let g0 : Engine :=
    Engine.mk 0 x0 (st.reactions.map (lowerReaction st.species))
      (match seed with | some s => s | none => entropy)
  if 0 < nb_steps then
    let out := gridRun sampler afuel tmax nb_steps g0 st.species.length
    some (out.1, st.species.zip out.2.1)
  else
    (eventRun sampler efuel tmax g0 [g0.t]
        (pushCols g0.x (List.replicate st.species.length []) 0)).map
      (fun tc => (tc.1, st.species.zip tc.2))

/-- The rendering of a rate by the `{}` format placeholder; the display
function itself is opaque to the claims, which only fix where the rate
appears. -/
def ratStr (q : ℚ) : String := toString q

/-- `Gillespie::__str__` in `src/pylib.rs`: the count header line, then
for each reaction the joined reactant names, the arrow, the joined
product names, and the rate, appended in insertion order. -/
def strForm (st : GState) : String :=
  st.reactions.foldl
    (fun s r =>
      s ++ String.intercalate " + " r.2.1 ++ " --> " ++
        String.intercalate " + " r.2.2 ++ " @ " ++ ratStr r.1 ++ "\n")
    (toString st.species.length ++ " species and " ++
      toString st.reactions.length ++ " reactions\n")

/-- Stated from the spec's words (section 6), for comparison with the
code: the species that registration appends: the first occurrences, in
encounter order, of the names not already registered. -/
def encounterNew : List String → List String → List String
  | _, [] => []
  | sp, n :: ns =>
    if n ∈ sp then encounterNew sp ns else n :: encounterNew (sp ++ [n]) ns

/-- Stated from the spec's words (section 6), for comparison with the
code: the reaction lines of the string form, one line per stored
reaction, in insertion order. -/
def specLines : List (ℚ × List String × List String) → String
  | [] => ""
  | r :: rs =>
    (String.intercalate " + " r.2.1 ++ " --> " ++
      String.intercalate " + " r.2.2 ++ " @ " ++ ratStr r.1 ++ "\n") ++
      specLines rs

/-! ### List helper lemmas -/

theorem getD_set_char {α : Type} (v : List α) (j i : Nat) (a d : α) :
    (v.set j a).getD i d = if j = i ∧ j < v.length then a else v.getD i d := by
  rw [List.getD_eq_getElem?_getD, List.getD_eq_getElem?_getD, List.getElem?_set]
  by_cases h1 : j = i
  · subst h1
    by_cases h2 : j < v.length
    · simp [h2]
    · simp [h2, List.getElem?_eq_none (Nat.le_of_not_lt h2)]
  · simp [h1]

theorem foldl_length_inv {α β : Type} (step : List α → β → List α)
    (h : ∀ w n, (step w n).length = w.length) (ns : List β) (v : List α) :
    (ns.foldl step v).length = v.length := by
  induction ns generalizing v with
  | nil => rfl
  | cons n ns ih => rw [List.foldl_cons, ih, h]

theorem foldl_bumpN_getD (f : String → Nat) (ns : List String) (v : List Nat)
    (i : Nat) (hi : i < v.length) :
    (ns.foldl (fun w n => w.set (f n) (w.getD (f n) 0 + 1)) v).getD i 0
      = v.getD i 0 + ns.countP (fun n => f n == i) := by
  induction ns generalizing v with
  | nil => simp
  | cons n ns ih =>
    rw [List.foldl_cons, ih _ (by simpa using hi), getD_set_char,
      List.countP_cons]
    by_cases h : f n = i
    · subst h
      rw [if_pos ⟨rfl, hi⟩, if_pos (by simp)]
      omega
    · rw [if_neg fun hc => h hc.1, if_neg (by simp [h])]
      omega

theorem foldl_bumpZ_getD (f : String → Nat) (d : Int) (ns : List String)
    (v : List Int) (i : Nat) (hi : i < v.length) :
    (ns.foldl (fun w n => w.set (f n) (w.getD (f n) 0 + d)) v).getD i 0
      = v.getD i 0 + d * ns.countP (fun n => f n == i) := by
  induction ns generalizing v with
  | nil => simp
  | cons n ns ih =>
    rw [List.foldl_cons, ih _ (by simpa using hi), getD_set_char,
      List.countP_cons]
    by_cases h : f n = i
    · subst h
      rw [if_pos ⟨rfl, hi⟩, if_pos (by simp)]
      push_cast
      ring
    · rw [if_neg fun hc => h hc.1, if_neg (by simp [h])]
      push_cast
      ring

/-! ### Lemmas about the species-map model -/

theorem lookupIdx_eq_none (sp : List String) (n : String) (h : n ∉ sp) :
    lookupIdx sp n = none := by
  induction sp with
  | nil => rfl
  | cons s ss ih =>
    have h1 : s ≠ n := fun he => h (he ▸ List.mem_cons_self s ss)
    have h2 : n ∉ ss := fun he => h (List.mem_cons_of_mem s he)
    simp [lookupIdx, h1, ih h2]

theorem lookupIdx_mem (sp : List String) (n : String) (h : n ∈ sp) :
    ∃ i, lookupIdx sp n = some i ∧ i < sp.length ∧ sp.getD i "" = n := by
  induction sp with
  | nil => cases h
  | cons s ss ih =>
    by_cases hs : s = n
    · exact ⟨0, by simp [lookupIdx, hs], by simp, by simp [hs]⟩
    · have h2 : n ∈ ss := by
        rcases List.mem_cons.1 h with h1 | h1
        · exact absurd h1.symm hs
        · exact h1
      obtain ⟨i, hl, hlen, hget⟩ := ih h2
      exact ⟨i + 1, by simp [lookupIdx, hs, hl], by simpa using hlen,
        by simpa using hget⟩

theorem getD_mem (sp : List String) (i : Nat) (hi : i < sp.length) :
    sp.getD i "" ∈ sp := by
  rw [List.getD_eq_getElem?_getD, List.getElem?_eq_getElem hi]
  exact List.getElem_mem hi

theorem lookupIdx_nodup (sp : List String) (hnd : sp.Nodup) (i : Nat)
    (hi : i < sp.length) : lookupIdx sp (sp.getD i "") = some i := by
  induction sp generalizing i with
  | nil => cases hi
  | cons s ss ih =>
    cases i with
    | zero => simp [lookupIdx]
    | succ i =>
      have hi2 : i < ss.length := by simpa using hi
      have hne : s ≠ ss.getD i "" := by
        intro he
        exact (List.nodup_cons.1 hnd).1 (he ▸ getD_mem ss i hi2)
      have h3 := ih (List.nodup_cons.1 hnd).2 i hi2
      have h4 : (s :: ss).getD (i + 1) "" = ss.getD i "" := rfl
      rw [h4]
      show (if s = ss.getD i "" then some 0
        else (lookupIdx ss (ss.getD i "")).map (· + 1)) = some (i + 1)
      rw [if_neg hne, h3]
      rfl

theorem spIdx_lt (sp : List String) (n : String) (h : n ∈ sp) :
    spIdx sp n < sp.length := by
  obtain ⟨i, hl, hlen, _⟩ := lookupIdx_mem sp n h
  simpa [spIdx, hl] using hlen

theorem spIdx_getD (sp : List String) (n : String) (h : n ∈ sp) :
    sp.getD (spIdx sp n) "" = n := by
  obtain ⟨i, hl, _, hget⟩ := lookupIdx_mem sp n h
  simpa [spIdx, hl] using hget

theorem spIdx_of_nodup (sp : List String) (hnd : sp.Nodup) (i : Nat)
    (hi : i < sp.length) : spIdx sp (sp.getD i "") = i := by
  show (lookupIdx sp (sp.getD i "")).getD sp.length = i
  rw [lookupIdx_nodup sp hnd i hi]
  rfl

/-! ### Lemmas about registration -/

theorem registerAll_cons (sp : List String) (m : String) (ms : List String) :
    registerAll sp (m :: ms)
      = registerAll (if m ∈ sp then sp else sp ++ [m]) ms := rfl

theorem registerAll_mem_left (sp ns : List String) (n : String) (h : n ∈ sp) :
    n ∈ registerAll sp ns := by
  induction ns generalizing sp with
  | nil => exact h
  | cons m ms ih =>
    rw [registerAll_cons]
    by_cases hm : m ∈ sp
    · rw [if_pos hm]; exact ih sp h
    · rw [if_neg hm]; exact ih _ (List.mem_append_left _ h)

theorem registerAll_mem_arg (sp ns : List String) (n : String) (h : n ∈ ns) :
    n ∈ registerAll sp ns := by
  induction ns generalizing sp with
  | nil => cases h
  | cons m ms ih =>
    rw [registerAll_cons]
    rcases List.mem_cons.1 h with h1 | h1
    · subst h1
      by_cases hm : n ∈ sp
      · rw [if_pos hm]; exact registerAll_mem_left sp ms n hm
      · rw [if_neg hm]
        exact registerAll_mem_left _ ms n (List.mem_append_right _ (by simp))
    · by_cases hm : m ∈ sp <;> simp only [if_pos, if_neg, hm] <;> exact ih _ h1

theorem registerAll_eq_self (sp ns : List String) (h : ∀ n ∈ ns, n ∈ sp) :
    registerAll sp ns = sp := by
  induction ns with
  | nil => rfl
  | cons m ms ih =>
    rw [registerAll_cons, if_pos (h m (by simp))]
    exact ih fun n hn => h n (List.mem_cons_of_mem m hn)

theorem registerAll_append (sp as bs : List String) :
    registerAll sp (as ++ bs) = registerAll (registerAll sp as) bs :=
  List.foldl_append _ _ as bs

theorem registerAll_eq_encounter (ns sp : List String) :
    registerAll sp ns = sp ++ encounterNew sp ns := by
  induction ns generalizing sp with
  | nil => simp [registerAll, encounterNew]
  | cons m ms ih =>
    rw [registerAll_cons]
    by_cases h : m ∈ sp
    · rw [if_pos h, ih sp, encounterNew, if_pos h]
    · rw [if_neg h, ih (sp ++ [m]), encounterNew, if_neg h]
      simp

/-! ### Claims C4, C5, C6, C9, C10 -/

/-- Claim C4: `add_reaction` with `reverse_rate = r` leaves the system in
a state identical to two separate `add_reaction` calls, the second with
the endpoints swapped: the same species map and the same reaction list in
the same order; in particular the reaction count grows by two and the
appended reactions are the forward triple then the swapped triple. -/
theorem add_reaction_reverse_pair (st : GState) (rate r : ℚ)
    (reactants products : List String) :
    add_reaction st rate reactants products (some r)
      = (add_reaction st rate reactants products none).bind
          (fun st1 => add_reaction st1 r products reactants none)
    ∧ ∃ st2, add_reaction st rate reactants products (some r) = Except.ok st2
        ∧ st2.reactions = st.reactions
            ++ [(rate, reactants, products), (r, products, reactants)]
        ∧ nb_reactions st2 = nb_reactions st + 2 := by
  have hps : ∀ n ∈ products,
      n ∈ registerAll (registerAll st.species reactants) products :=
    fun n hn => registerAll_mem_arg _ _ n hn
  have hrs : ∀ n ∈ reactants,
      n ∈ registerAll (registerAll st.species reactants) products :=
    fun n hn => registerAll_mem_left _ _ n (registerAll_mem_arg _ _ n hn)
  constructor
  · show Except.ok (GState.mk
        (registerAll (registerAll st.species reactants) products)
        ((st.reactions ++ [(rate, reactants, products)])
          ++ [(r, products, reactants)]))
      = Except.ok (GState.mk
        (registerAll (registerAll
          (registerAll (registerAll st.species reactants) products) products)
          reactants)
        ((st.reactions ++ [(rate, reactants, products)])
          ++ [(r, products, reactants)]))
    rw [registerAll_eq_self _ products hps, registerAll_eq_self _ reactants hrs]
  · refine ⟨GState.mk (registerAll (registerAll st.species reactants) products)
      ((st.reactions ++ [(rate, reactants, products)])
        ++ [(r, products, reactants)]), rfl, by simp, ?_⟩
    show ((st.reactions ++ [(rate, reactants, products)])
      ++ [(r, products, reactants)]).length = st.reactions.length + 2
    simp

/-- Claim C5: `add_reaction` appends exactly the unseen names, in
encounter order (reactants in list order first, then products), at
consecutive fresh indices, and never moves an already-registered name;
in the SIR example the mapping is exactly S at 0, I at 1, R at 2. -/
theorem add_reaction_registration (st : GState) (rate : ℚ)
    (reactants products : List String) (reverse_rate : Option ℚ)
    (st2 : GState)
    (h : add_reaction st rate reactants products reverse_rate
      = Except.ok st2) :
    st2.species = st.species ++ encounterNew st.species (reactants ++ products)
    ∧ (∀ n ∈ reactants ++ products, n ∈ st2.species)
    ∧ (∃ u1 u2 : GState,
        add_reaction GState.new (1/10000) ["S", "I"] ["I", "I"] none
          = Except.ok u1
        ∧ add_reaction u1 (1/100) ["I"] ["R"] none = Except.ok u2
        ∧ u2.species = ["S", "I", "R"]
        ∧ lookupIdx u2.species "S" = some 0
        ∧ lookupIdx u2.species "I" = some 1
        ∧ lookupIdx u2.species "R" = some 2) := by
  have hst2 : st2.species
      = registerAll st.species (reactants ++ products) := by
    rw [registerAll_append]
    cases reverse_rate with
    | none => simp only [add_reaction] at h; cases h; rfl
    | some rr => simp only [add_reaction] at h; cases h; rfl
  refine ⟨?_, ?_, ?_⟩
  · rw [hst2, registerAll_eq_encounter]
  · intro n hn
    rw [hst2]
    exact registerAll_mem_arg _ _ n hn
  · exact ⟨GState.mk ["S", "I"] [(1/10000, ["S", "I"], ["I", "I"])],
      GState.mk ["S", "I", "R"]
        [(1/10000, ["S", "I"], ["I", "I"]), (1/100, ["I"], ["R"])],
      rfl, rfl, by decide, by decide, by decide, by decide⟩

/-- Witness for claim C5 at a concrete input: adding `I -> S + R` to a
system already knowing `S` appends `I` then `R` after the existing
species. -/
theorem add_reaction_registration_witness :
    add_reaction (GState.mk ["S"] []) 1 ["I"] ["S", "R"] none
      = Except.ok (GState.mk ["S", "I", "R"] [(1, ["I"], ["S", "R"])])
    ∧ (GState.mk ["S", "I", "R"] [(1, ["I"], ["S", "R"])]).species
        = ["S"] ++ encounterNew ["S"] (["I"] ++ ["S", "R"]) :=
  ⟨rfl,
    (add_reaction_registration (GState.mk ["S"] []) 1 ["I"] ["S", "R"] none
      (GState.mk ["S", "I", "R"] [(1, ["I"], ["S", "R"])]) rfl).1⟩

/-- Claim C6: with a seed supplied, `run` is a deterministic function of
its arguments and the stored reactions: the entropy source is never
consulted, so two calls with identical arguments agree exactly. -/
theorem run_deterministic (sampler : ℚ → ℚ → ℚ) (afuel efuel : Nat)
    (st : GState) (init : List (String × Nat)) (tmax : ℚ) (nb_steps : Nat)
    (s e1 e2 : Nat) :
    run sampler afuel efuel st init tmax nb_steps (some s) e1
      = run sampler afuel efuel st init tmax nb_steps (some s) e2 := rfl

theorem foldl_specLines (rs : List (ℚ × List String × List String))
    (acc : String) :
    rs.foldl
      (fun s r =>
        s ++ String.intercalate " + " r.2.1 ++ " --> " ++
          String.intercalate " + " r.2.2 ++ " @ " ++ ratStr r.1 ++ "\n")
      acc
      = acc ++ specLines rs := by
  induction rs generalizing acc with
  | nil => rw [List.foldl_nil, specLines, String.append_empty]
  | cons r rs ih =>
    rw [List.foldl_cons, ih, specLines]
    simp only [String.append_assoc]

/-- Claim C9: the string form is one header line with the species and
reaction counts, followed by one line per stored reaction in insertion
order, each line being the reactant names joined by a plus sign, the
arrow, the product names joined by a plus sign, and the rate. -/
theorem strForm_spec (st : GState) :
    strForm st = toString (nb_species st) ++ " species and "
      ++ toString (nb_reactions st) ++ " reactions\n"
      ++ specLines st.reactions := by
  rw [strForm, foldl_specLines]
  rfl

/-- Claim C10: the name-based `add_reaction` is total: every call
succeeds, and the facade's run-time lowering always builds multiplicity
and change vectors of length exactly the species count, so no shape
validation can ever fail. -/
theorem add_reaction_total (st : GState) (rate : ℚ)
    (reactants products : List String) (reverse_rate : Option ℚ)
    (sp rs2 ps2 : List String) :
    (∃ st2, add_reaction st rate reactants products reverse_rate
      = Except.ok st2)
    ∧ (vreactantsOf sp rs2).length = sp.length
    ∧ (actionsOf sp rs2 ps2).length = sp.length := by
  refine ⟨?_, ?_, ?_⟩
  · cases reverse_rate with
    | none => exact ⟨_, rfl⟩
    | some r => exact ⟨_, rfl⟩
  · rw [vreactantsOf, foldl_length_inv _ (fun w n => by simp) rs2 _]
    simp
  · simp only [actionsOf]
    rw [foldl_length_inv _ (fun w n => by simp) ps2 _,
      foldl_length_inv _ (fun w n => by simp) rs2 _]
    simp

/-! ### Claim C3: the lowering of name-based reactions -/

theorem countP_spIdx (sp : List String) (hnd : sp.Nodup) (i : Nat)
    (hi : i < sp.length) (ls : List String) (hm : ∀ n ∈ ls, n ∈ sp) :
    ls.countP (fun n => spIdx sp n == i) = ls.count (sp.getD i "") := by
  show _ = ls.countP (· == sp.getD i "")
  apply List.countP_congr
  intro n hn
  simp only [beq_iff_eq]
  constructor
  · intro hb
    rw [← spIdx_getD sp n (hm n hn), hb]
  · intro hb
    rw [hb, spIdx_of_nodup sp hnd i hi]

/-- Claim C3: each stored name-based reaction lowers to exactly one LMA
reaction: the multiplicity vector counts, for each species index, the
occurrences of that species' name among the reactants, and the change
vector is the product-occurrence count minus the reactant-occurrence
count; repeated names add one per occurrence. -/
theorem lowerReaction_counts (sp : List String) (rate : ℚ)
    (reactants products : List String) (i : Nat)
    (hnd : sp.Nodup)
    (hr : ∀ n ∈ reactants, n ∈ sp)
    (hp : ∀ n ∈ products, n ∈ sp)
    (hi : i < sp.length) :
    (vreactantsOf sp reactants).getD i 0 = reactants.count (sp.getD i "")
    ∧ (actionsOf sp reactants products).getD i 0
        = (products.count (sp.getD i "") : Int)
          - (reactants.count (sp.getD i "") : Int)
    ∧ lowerReaction sp (rate, reactants, products)
        = (EngRate.lma rate (vreactantsOf sp reactants),
            actionsOf sp reactants products) := by
  refine ⟨?_, ?_, rfl⟩
  · rw [vreactantsOf,
      foldl_bumpN_getD (spIdx sp) reactants _ i (by simpa using hi),
      countP_spIdx sp hnd i hi reactants hr]
    simp [List.getD_eq_getElem?_getD, List.getElem?_replicate, hi]
  · simp only [actionsOf, sub_eq_add_neg]
    have hrep : i < (List.replicate sp.length (0 : Int)).length := by
      simpa using hi
    have hlen1 : (List.foldl
        (fun v r => v.set (spIdx sp r) (v.getD (spIdx sp r) 0 + (-1 : Int)))
        (List.replicate sp.length 0) reactants).length = sp.length := by
      rw [foldl_length_inv _ (fun w n => by simp) reactants _]
      simp
    rw [foldl_bumpZ_getD (spIdx sp) 1 products _ i (by rw [hlen1]; exact hi),
      foldl_bumpZ_getD (spIdx sp) (-1) reactants _ i hrep,
      countP_spIdx sp hnd i hi products hp,
      countP_spIdx sp hnd i hi reactants hr]
    have hz : (List.replicate sp.length (0 : Int)).getD i 0 = 0 := by
      simp [List.getD_eq_getElem?_getD, List.getElem?_replicate, hi]
    rw [hz]
    ring

/-- Witness for claim C3 at the SIR infection reaction `S + I -> I + I`,
species index 0 (the name S). -/
theorem lowerReaction_counts_witness :
    (vreactantsOf ["S", "I"] ["S", "I"]).getD 0 0
        = ["S", "I"].count (["S", "I"].getD 0 "")
    ∧ (actionsOf ["S", "I"] ["S", "I"] ["I", "I"]).getD 0 0
        = ((["I", "I"].count (["S", "I"].getD 0 "") : Int)
            - (["S", "I"].count (["S", "I"].getD 0 "") : Int)) :=
  ⟨(lowerReaction_counts ["S", "I"] 1 ["S", "I"] ["I", "I"] 0
      (by decide) (by decide) (by decide) (by decide)).1,
    (lowerReaction_counts ["S", "I"] 1 ["S", "I"] ["I", "I"] 0
      (by decide) (by decide) (by decide) (by decide)).2.1⟩

/-! ### Claim C7: the initial count vector -/

theorem lookupIdx_some (sp : List String) (n : String) (i : Nat)
    (h : lookupIdx sp n = some i) : i < sp.length ∧ sp.getD i "" = n := by
  induction sp generalizing i with
  | nil => cases h
  | cons s ss ih =>
    by_cases hs : s = n
    · simp only [lookupIdx, if_pos hs] at h
      cases h
      exact ⟨by simp, hs⟩
    · simp only [lookupIdx, if_neg hs, Option.map_eq_some'] at h
      obtain ⟨j, hj, hji⟩ := h
      obtain ⟨hlt, hget⟩ := ih j hj
      subst hji
      exact ⟨by simpa using hlt, hget⟩

theorem initApply_length (sp : List String) (v : List Int) (p : String × Nat) :
    (initApply sp v p).length = v.length := by
  cases hl : lookupIdx sp p.1 <;> simp [initApply, hl]

theorem initApply_getD_ne (sp : List String) (v : List Int) (p : String × Nat)
    (i : Nat) (h : lookupIdx sp p.1 ≠ some i) :
    (initApply sp v p).getD i 0 = v.getD i 0 := by
  cases hl : lookupIdx sp p.1 with
  | none => simp [initApply, hl]
  | some j =>
    have hj : j ≠ i := fun he => h (he ▸ hl)
    simp only [initApply, hl]
    rw [getD_set_char, if_neg fun hc => hj hc.1]

theorem initApply_getD_eq (sp : List String) (v : List Int) (p : String × Nat)
    (i : Nat) (hl : lookupIdx sp p.1 = some i) (hi : i < v.length) :
    (initApply sp v p).getD i 0 = (p.2 : Int) := by
  simp only [initApply, hl]
  rw [getD_set_char, if_pos ⟨rfl, hi⟩]

theorem foldl_initApply_untouched (sp : List String) (i : Nat) :
    ∀ (ps : List (String × Nat)) (w : List Int),
    (∀ q ∈ ps, lookupIdx sp q.1 ≠ some i) →
    (ps.foldl (initApply sp) w).getD i 0 = w.getD i 0 := by
  intro ps
  induction ps with
  | nil => intro w _; rfl
  | cons p ps ih =>
    intro w h
    rw [List.foldl_cons, ih _ fun q hq => h q (List.mem_cons_of_mem _ hq),
      initApply_getD_ne sp w p i (h p (List.mem_cons_self _ _))]

theorem foldl_initApply_applied (sp : List String) (name : String) (v : Nat)
    (i : Nat) :
    ∀ (init : List (String × Nat)) (w : List Int),
    w.length = sp.length → ((init.map Prod.fst).Nodup) →
    (name, v) ∈ init → lookupIdx sp name = some i →
    (init.foldl (initApply sp) w).getD i 0 = (v : Int) := by
  intro init
  induction init with
  | nil => intro w _ _ hmem; cases hmem
  | cons p ps ih =>
    intro w hw hnd hmem hidx
    rw [List.foldl_cons]
    rcases List.mem_cons.1 hmem with he | hm
    · have hp1 : p.1 = name := by rw [← he]
      have hkey : ∀ q ∈ ps, q.1 ≠ name := by
        intro q hq he2
        exact (List.nodup_cons.1 hnd).1 (hp1 ▸ he2 ▸ List.mem_map_of_mem Prod.fst hq)
      have huntouched : ∀ q ∈ ps, lookupIdx sp q.1 ≠ some i := by
        intro q hq he2
        apply hkey q hq
        rw [← (lookupIdx_some sp q.1 i he2).2, ← (lookupIdx_some sp name i hidx).2]
      rw [foldl_initApply_untouched sp i ps _ huntouched]
      have hi : i < w.length := hw ▸ (lookupIdx_some sp name i hidx).1
      rw [initApply_getD_eq sp w p i (hp1 ▸ hidx) hi, ← he]
    · have hp1 : p.1 ≠ name := by
        intro he2
        exact (List.nodup_cons.1 hnd).1
          (he2 ▸ List.mem_map_of_mem Prod.fst hm) |>.elim
      exact ih _ (by rw [initApply_length, hw]) (List.nodup_cons.1 hnd).2 hm hidx

/-- Claim C7: `run` builds the initial count vector by writing, for every
init pair whose name is a registered species, that value at the species'
index; pairs whose name is unknown are ignored, change nothing about the
run, and raise no error. -/
theorem run_init_spec (sampler : ℚ → ℚ → ℚ) (afuel efuel : Nat)
    (st : GState) (init : List (String × Nat)) (tmax : ℚ) (nb_steps : Nat)
    (seed : Option Nat) (entropy : Nat)
    (name : String) (v : Nat) (i : Nat) (junk : String) (jv : Nat)
    (hkeys : (init.map Prod.fst).Nodup)
    (hmem : (name, v) ∈ init)
    (hidx : lookupIdx st.species name = some i)
    (hjunk : junk ∉ st.species) :
    (buildX0 st.species init).getD i 0 = (v : Int)
    ∧ buildX0 st.species (init ++ [(junk, jv)]) = buildX0 st.species init
    ∧ run sampler afuel efuel st (init ++ [(junk, jv)]) tmax nb_steps seed
        entropy
      = run sampler afuel efuel st init tmax nb_steps seed entropy := by
  have hbx : buildX0 st.species (init ++ [(junk, jv)])
      = buildX0 st.species init := by
    rw [buildX0, List.foldl_append, List.foldl_cons, List.foldl_nil]
    simp only [initApply, lookupIdx_eq_none st.species junk hjunk]
    rfl
  refine ⟨?_, hbx, ?_⟩
  · rw [buildX0]
    exact foldl_initApply_applied st.species name v i init _ (by simp)
      hkeys hmem hidx
  · unfold run
    rw [hbx]

/-- Witness for claim C7: with species S, I, the init map assigns I the
value 5 at index 1, and an unknown name Z is ignored. -/
theorem run_init_spec_witness :
    (buildX0 ["S", "I"] [("I", 5)]).getD 1 0 = ((5 : Nat) : Int)
    ∧ buildX0 ["S", "I"] ([("I", 5)] ++ [("Z", 3)])
        = buildX0 ["S", "I"] [("I", 5)] :=
  ⟨(run_init_spec (fun u l => u / l) 1 1 (GState.mk ["S", "I"] [])
      [("I", 5)] 1 1 none 0 "I" 5 1 "Z" 3 (by decide) (by decide) (by decide)
      (by decide)).1,
    (run_init_spec (fun u l => u / l) 1 1 (GState.mk ["S", "I"] [])
      [("I", 5)] 1 1 none 0 "I" 5 1 "Z" 3 (by decide) (by decide) (by decide)
      (by decide)).2.1⟩

/-! ### Claim C2: the grid-mode times vector -/

theorem gridFold_times (sampler : ℚ → ℚ → ℚ) (afuel : Nat) (tmax : ℚ)
    (nsteps : Nat) :
    ∀ (l : List Nat) (ts : List ℚ) (cols : List (List Int)) (g : Engine),
    (l.foldl (gridStep sampler afuel tmax nsteps) (ts, cols, g)).1
      = ts ++ l.map (fun i : Nat => tmax * (i : ℚ) / (nsteps : ℚ)) := by
  intro l
  induction l with
  | nil => intro ts cols g; simp
  | cons i l ih =>
    intro ts cols g
    rw [List.foldl_cons]
    have hstep : gridStep sampler afuel tmax nsteps (ts, cols, g) i
        = (ts ++ [tmax * (i : ℚ) / (nsteps : ℚ)],
            pushCols
              (advanceUntil sampler afuel (tmax * (i : ℚ) / (nsteps : ℚ)) g).x
              cols 0,
            advanceUntil sampler afuel (tmax * (i : ℚ) / (nsteps : ℚ)) g) :=
      rfl
    rw [hstep, ih]
    simp

/-- Claim C2: in grid mode (`nb_steps > 0`), `run` returns a times vector
of length exactly `nb_steps + 1` whose entry `k` is the value
`tmax * k / nb_steps`; in particular `times[0] = 0`. -/
theorem run_grid_times (sampler : ℚ → ℚ → ℚ) (afuel efuel : Nat)
    (st : GState) (init : List (String × Nat)) (tmax : ℚ) (nb_steps : Nat)
    (seed : Option Nat) (entropy : Nat) (h : 0 < nb_steps) :
    ∃ times spo,
      run sampler afuel efuel st init tmax nb_steps seed entropy
        = some (times, spo)
      ∧ times.length = nb_steps + 1
      ∧ times.getD 0 0 = 0
      ∧ ∀ k, k ≤ nb_steps →
          times.getD k 0 = tmax * (k : ℚ) / (nb_steps : ℚ) := by
  unfold run
  rw [if_pos h]
  refine ⟨_, _, rfl, ?_, ?_, ?_⟩
  · rw [gridRun, gridFold_times, List.nil_append, List.length_map,
      List.length_range]
  · rw [gridRun, gridFold_times, List.nil_append,
      List.getD_eq_getElem?_getD, List.getElem?_map,
      List.getElem?_range (Nat.succ_pos nb_steps), Option.map_some',
      Option.getD_some]
    simp
  · intro k hk
    rw [gridRun, gridFold_times, List.nil_append,
      List.getD_eq_getElem?_getD, List.getElem?_map,
      List.getElem?_range (Nat.lt_succ_of_le hk), Option.map_some',
      Option.getD_some]

/-- Witness for claim C2: a one-species system with no reactions, run on
the grid `tmax = 10`, `nb_steps = 2`. -/
theorem run_grid_times_witness :
    0 < 2 ∧ ∃ times spo,
      run (fun u l => u / l) 1 1 (GState.mk ["A"] []) [] 10 2 none 0
        = some (times, spo)
      ∧ times.length = 2 + 1
      ∧ times.getD 0 0 = 0
      ∧ ∀ k, k ≤ 2 → times.getD k 0 = 10 * (k : ℚ) / ((2 : Nat) : ℚ) :=
  ⟨by decide,
    run_grid_times (fun u l => u / l) 1 1 (GState.mk ["A"] []) [] 10 2 none 0
      (by decide)⟩

/-! ### Claim C8: output column lengths -/

theorem pushCols_length (x : List Int) :
    ∀ (cols : List (List Int)) (s : Nat),
    (pushCols x cols s).length = cols.length := by
  intro cols
  induction cols with
  | nil => intro s; rfl
  | cons c cs ih => intro s; simp [pushCols, ih]

theorem pushCols_mem_length (x : List Int) (k : Nat) :
    ∀ (cols : List (List Int)) (s : Nat),
    (∀ c ∈ cols, c.length = k) →
    ∀ c ∈ pushCols x cols s, c.length = k + 1 := by
  intro cols
  induction cols with
  | nil => intro s _ c hc; cases hc
  | cons c0 cs ih =>
    intro s h c hc
    rcases List.mem_cons.1 hc with he | hm
    · rw [he]
      simp [h c0 (List.mem_cons_self _ _)]
    · exact ih (s + 1) (fun q hq => h q (List.mem_cons_of_mem _ hq)) c hm

theorem gridFold_cols (sampler : ℚ → ℚ → ℚ) (afuel : Nat) (tmax : ℚ)
    (nsteps : Nat) :
    ∀ (l : List Nat) (ts : List ℚ) (cols : List (List Int)) (g : Engine),
    (∀ c ∈ cols, c.length = ts.length) →
    (l.foldl (gridStep sampler afuel tmax nsteps) (ts, cols, g)).2.1.length
        = cols.length
    ∧ ∀ c ∈ (l.foldl (gridStep sampler afuel tmax nsteps) (ts, cols, g)).2.1,
        c.length
          = (l.foldl (gridStep sampler afuel tmax nsteps) (ts, cols, g)).1.length := by
  intro l
  induction l with
  | nil => intro ts cols g h; exact ⟨rfl, h⟩
  | cons i l ih =>
    intro ts cols g h
    rw [List.foldl_cons]
    have hstep : gridStep sampler afuel tmax nsteps (ts, cols, g) i
        = (ts ++ [tmax * (i : ℚ) / (nsteps : ℚ)],
            pushCols
              (advanceUntil sampler afuel (tmax * (i : ℚ) / (nsteps : ℚ)) g).x
              cols 0,
            advanceUntil sampler afuel (tmax * (i : ℚ) / (nsteps : ℚ)) g) :=
      rfl
    rw [hstep]
    have hnext : ∀ c ∈ pushCols
        (advanceUntil sampler afuel (tmax * (i : ℚ) / (nsteps : ℚ)) g).x cols 0,
        c.length = (ts ++ [tmax * (i : ℚ) / (nsteps : ℚ)]).length := by
      intro c hc
      rw [List.length_append, List.length_singleton]
      exact pushCols_mem_length _ ts.length cols 0 h c hc
    obtain ⟨h1, h2⟩ := ih (ts ++ [tmax * (i : ℚ) / (nsteps : ℚ)])
      (pushCols (advanceUntil sampler afuel (tmax * (i : ℚ) / (nsteps : ℚ)) g).x
        cols 0)
      (advanceUntil sampler afuel (tmax * (i : ℚ) / (nsteps : ℚ)) g) hnext
    exact ⟨h1.trans (pushCols_length _ cols 0), h2⟩

theorem eventRun_cols (sampler : ℚ → ℚ → ℚ) (tmax : ℚ) :
    ∀ (fuel : Nat) (g : Engine) (ts : List ℚ) (cols : List (List Int))
      (out : List ℚ × List (List Int)),
    eventRun sampler fuel tmax g ts cols = some out →
    (∀ c ∈ cols, c.length = ts.length) →
    out.2.length = cols.length ∧ ∀ c ∈ out.2, c.length = out.1.length := by
  intro fuel
  induction fuel with
  | zero => intro g ts cols out h; cases h
  | succ fuel ih =>
    intro g ts cols out h hc
    simp only [eventRun] at h
    by_cases ht : g.t < tmax
    · rw [if_pos ht] at h
      have hnext : ∀ c ∈ pushCols ((stepKernel sampler g).getD g).x cols 0,
          c.length = (ts ++ [((stepKernel sampler g).getD g).t]).length := by
        intro c hcm
        rw [List.length_append, List.length_singleton]
        exact pushCols_mem_length _ ts.length cols 0 hc c hcm
      obtain ⟨h1, h2⟩ := ih _ _ _ _ h hnext
      exact ⟨h1.trans (pushCols_length _ cols 0), h2⟩
    · rw [if_neg ht] at h
      cases h
      exact ⟨rfl, hc⟩

/-- Claim C8: in both grid and event mode, the returned map has one entry
per registered species, and every species' value column has exactly the
same length as the times vector. -/
theorem run_lengths (sampler : ℚ → ℚ → ℚ) (afuel efuel : Nat) (st : GState)
    (init : List (String × Nat)) (tmax : ℚ) (nb_steps : Nat)
    (seed : Option Nat) (entropy : Nat) (times : List ℚ)
    (spo : List (String × List Int))
    (h : run sampler afuel efuel st init tmax nb_steps seed entropy
      = some (times, spo)) :
    spo.map Prod.fst = st.species
    ∧ ∀ p ∈ spo, p.2.length = times.length := by
  by_cases hn : 0 < nb_steps
  · unfold run at h
    rw [if_pos hn, Option.some_inj, Prod.mk.injEq] at h
    obtain ⟨ht, hs⟩ := h
    subst ht
    subst hs
    obtain ⟨hcols, hlens⟩ := gridFold_cols sampler afuel tmax nb_steps
      (List.range (nb_steps + 1)) [] (List.replicate st.species.length [])
      (Engine.mk 0 (buildX0 st.species init)
        (st.reactions.map (lowerReaction st.species))
        (match seed with | some s => s | none => entropy))
      (by intro c hc; rw [(List.mem_replicate.1 hc).2]; rfl)
    rw [List.length_replicate] at hcols
    refine ⟨List.map_fst_zip _ _ (le_of_eq hcols.symm), ?_⟩
    intro p hp
    exact hlens p.2 (List.of_mem_zip hp).2
  · unfold run at h
    rw [if_neg hn, Option.map_eq_some'] at h
    obtain ⟨tc, htc, hout⟩ := h
    rw [Prod.mk.injEq] at hout
    obtain ⟨ht, hs⟩ := hout
    subst ht
    subst hs
    have hinit : ∀ c ∈ pushCols (buildX0 st.species init)
        (List.replicate st.species.length []) 0,
        c.length = ([(0 : ℚ)]).length := by
      intro c hc
      rw [List.length_singleton]
      exact pushCols_mem_length _ 0 _ 0
        (by intro q hq; rw [(List.mem_replicate.1 hq).2]; rfl) c hc
    obtain ⟨h1, h2⟩ := eventRun_cols sampler tmax efuel _ _ _ tc htc hinit
    rw [pushCols_length, List.length_replicate] at h1
    refine ⟨List.map_fst_zip _ _ (le_of_eq h1.symm), ?_⟩
    intro p hp
    exact h2 p.2 (List.of_mem_zip hp).2

/-- Witness for claim C8: a one-species, no-reaction system in event mode
with `tmax = 0`: the output holds only the initial sample. -/
theorem run_lengths_witness :
    [("A", ([0] : List Int))].map Prod.fst = ["A"]
    ∧ ∀ p ∈ [("A", ([0] : List Int))],
        p.2.length = ([0] : List ℚ).length :=
  run_lengths (fun u l => u / l) 1 1 (GState.mk ["A"] []) [] 0 0 none 0
    [0] [("A", [0])] (by decide)

/-! ### Claim C1: event mode on an absorbing system -/

/-- The concrete absorbing scenario, built through the facade: one
reaction `A -> B` at rate 5 with both species at count zero, so every
propensity is zero from the start. -/
def sysAbs : GState := GState.mk ["A", "B"] [(5, ["A"], ["B"])]

/-- The engine state that `run sysAbs {} tmax 0 (seed 7)` starts the
event loop from. -/
def gAbs : Engine :=
  Engine.mk 0 (buildX0 sysAbs.species [])
    (sysAbs.reactions.map (lowerReaction sysAbs.species)) 7

theorem stepKernel_gAbs (sampler : ℚ → ℚ → ℚ) :
    stepKernel sampler gAbs = none := by
  have hx : gAbs.x = [0, 0] := by decide
  have hr : gAbs.reactions = [(EngRate.lma 5 [1, 0], [-1, 1])] := by decide
  have hc : ((gAbs.reactions.map
      (fun r => propensity r.1 gAbs.x)).foldl (· + ·) 0 : ℚ) ≤ 0 := by
    rw [hr, hx]
    show List.foldl (· + ·) 0 [propensity (EngRate.lma 5 [1, 0]) [0, 0]] ≤ 0
    rw [List.foldl_cons, List.foldl_nil]
    show (0 : ℚ) + 5 * ((lmaProduct [0, 0] [1, 0] : ℤ) : ℚ) ≤ 0
    have h1 : lmaProduct [0, 0] [1, 0] = 0 := by decide
    rw [h1]
    norm_num
  simp only [stepKernel]
  rw [if_pos hc]

theorem eventRun_gAbs (sampler : ℚ → ℚ → ℚ) :
    ∀ (fuel : Nat) (ts : List ℚ) (cols : List (List Int)),
    eventRun sampler fuel 100 gAbs ts cols = none := by
  intro fuel
  induction fuel with
  | zero => intro ts cols; rfl
  | succ fuel ih =>
    intro ts cols
    simp only [eventRun, stepKernel_gAbs, Option.getD_none]
    rw [if_pos (show gAbs.t < 100 by norm_num [gAbs])]
    exact ih _ _

/-- Claim C1 (refuted, code bug): in event mode on a system that is
absorbing from the start, the claim says only the initial sample is
emitted and the run terminates with the time still 0; but the event loop
of `run` pushes one sample on every iteration of `while t < tmax` and the
absorbing kernel never advances `t`, so the loop never terminates: for
every fuel bound the loop is still running (`none`), for any sampler,
any `advance_until` fuel, and any entropy. -/
theorem run_event_absorbing_loops :
    add_reaction GState.new 5 ["A"] ["B"] none = Except.ok sysAbs
    ∧ ∀ (sampler : ℚ → ℚ → ℚ) (afuel efuel entropy : Nat),
        run sampler afuel efuel sysAbs [] 100 0 (some 7) entropy = none := by
  refine ⟨rfl, ?_⟩
  intro sampler afuel efuel entropy
  show (eventRun sampler efuel 100 gAbs [gAbs.t]
      (pushCols gAbs.x (List.replicate sysAbs.species.length []) 0)).map
    (fun tc => (tc.1, sysAbs.species.zip tc.2)) = none
  rw [eventRun_gAbs]
  rfl

end Rebop
